import Mathlib

/-!
Verification of the lexical-analyzer pipeline (tokenizer, recursive-descent
expression evaluator, statement processor, program driver) from
`src/App.tsx`.  Statements are modelled over `List Char`; the variable
table is an insertion-ordered association list, matching the JS object
used by the source.  The expression parser is modelled with an explicit
fuel parameter (structural recursion); an adequacy theorem shows the
canonical fuel used by the pipeline never runs out, so the fuel value is
unobservable.
-/

/-- Characters are handled as lists; `Str` abbreviates the statement text type. -/
abbrev Str := List Char

/-- Whitespace skipped by the tokenizer: exactly space, tab, CR, NL (App.tsx line 34). -/
def tokWS (c : Char) : Bool :=
  c = ' ' || c = '\t' || c = '\r' || c = '\n'

/-- Whitespace removed by JavaScript `String.prototype.trim`
(ECMA-262 WhiteSpace and LineTerminator code points). -/
def jsWS (c : Char) : Bool :=
  c.val = 0x09 || c.val = 0x0A || c.val = 0x0B || c.val = 0x0C || c.val = 0x0D ||
  c.val = 0x20 || c.val = 0xA0 || c.val = 0x1680 ||
  (0x2000 ≤ c.val && c.val ≤ 0x200A) ||
  c.val = 0x2028 || c.val = 0x2029 || c.val = 0x202F || c.val = 0x205F ||
  c.val = 0x3000 || c.val = 0xFEFF

/-- Remove trailing JS whitespace. -/
def trimRight : Str → Str
  | [] => []
  | c :: cs =>
    match trimRight cs with
    | [] => if jsWS c then [] else [c]
    | r => c :: r

/-- JavaScript `trim`: drop leading and trailing whitespace. -/
def jsTrim (s : Str) : Str :=
  trimRight (s.dropWhile jsWS)

/-- `ch === "_" || (ch >= "a" && ch <= "z")` (App.tsx line 20). -/
def isIdentifierStart (c : Char) : Bool :=
  c = '_' || ('a' ≤ c && c ≤ 'z')

/-- `(ch >= "a" && ch <= "z") || (ch >= "A" && ch <= "Z")` (App.tsx line 21). -/
def isAlpha (c : Char) : Bool :=
  ('a' ≤ c && c ≤ 'z') || ('A' ≤ c && c ≤ 'Z')

/-- `ch >= "0" && ch <= "9"` (App.tsx line 22). -/
def isDigit (c : Char) : Bool :=
  '0' ≤ c && c ≤ '9'

/-- Token kinds declared by the source's `TokenType` union (App.tsx lines 6-15). -/
inductive TType where
  | identifier | hex | op | assign | lparen | rparen | semicolon | comment | unknown
deriving DecidableEq, Repr

/-- `{ type: TokenType; value: string; pos: number }` (App.tsx line 17). -/
structure Token where
  type : TType
  value : Str
  pos : Nat
deriving DecidableEq, Repr

/-- Continuation characters of an identifier run (App.tsx line 80). -/
def identCont (c : Char) : Bool :=
  isAlpha c || isDigit c || c = '_'

/-- Continuation characters of a hex-literal run (App.tsx line 90). -/
def hexCont (c : Char) : Bool :=
  isDigit c || ('a' ≤ c && c ≤ 'f')

/-- One pass of the scanner loop of `tokenizeLine` (App.tsx lines 30-100),
with an explicit fuel argument; `none` means the fuel ran out (shown
impossible for the canonical fuel by `tokenizeAuxF_total`).  Each branch
mirrors one `if` of the source, in source order. -/
def tokenizeAuxF : Nat → Str → Nat → Option (List Token)
  | 0, _, _ => none
  | Nat.succ f, l, p =>
    match l with
    | [] => some []
    | c :: cs =>
      if tokWS c then
        tokenizeAuxF f cs (p + 1)
      else if c = '/' && (cs.head? = some '/') then
        some [⟨TType.comment, c :: cs, p⟩]
      else if c = ':' then
        if cs.head? = some '=' then
          (tokenizeAuxF f cs.tail (p + 2)).map (⟨TType.assign, [':', '='], p⟩ :: ·)
        else
          (tokenizeAuxF f cs (p + 1)).map (⟨TType.unknown, [':'], p⟩ :: ·)
      else if c = '(' then
        (tokenizeAuxF f cs (p + 1)).map (⟨TType.lparen, [c], p⟩ :: ·)
      else if c = ')' then
        (tokenizeAuxF f cs (p + 1)).map (⟨TType.rparen, [c], p⟩ :: ·)
      else if c = '+' || c = '-' || c = '*' || c = '/' then
        (tokenizeAuxF f cs (p + 1)).map (⟨TType.op, [c], p⟩ :: ·)
      else if isIdentifierStart c then
        let run := cs.takeWhile identCont
        let rest := cs.dropWhile identCont
        (tokenizeAuxF f rest (p + 1 + run.length)).map (⟨TType.identifier, c :: run, p⟩ :: ·)
      else if isDigit c then
        let run := cs.takeWhile hexCont
        let rest := cs.dropWhile hexCont
        (tokenizeAuxF f rest (p + 1 + run.length)).map (⟨TType.hex, c :: run, p⟩ :: ·)
      else
        (tokenizeAuxF f cs (p + 1)).map (⟨TType.unknown, [c], p⟩ :: ·)

/-- `tokenizeLine(line, basePos = 0)` (App.tsx lines 25-103).  The fuel
`l.length + 1` is always sufficient (`tokenizeAuxF_total`). -/
def tokenizeLine (l : Str) : List Token :=
  (tokenizeAuxF (l.length + 1) l 0).getD []

/-- The variable table `Record<string, number>` (App.tsx line 111): an
insertion-ordered association list, keys unique, values signed integers. -/
abbrev VarTable := List (Str × Int)

/-- Property lookup in the variable table (first match). -/
def lookupVar : VarTable → Str → Option Int
  | [], _ => none
  | (k, v) :: rest, key => if k = key then some v else lookupVar rest key

/-- `vars[left] = val` on a JS object: update an existing key in place,
otherwise append the new key at the end. -/
def setVar : VarTable → Str → Int → VarTable
  | [], key, v => [(key, v)]
  | (k, w) :: rest, key, v =>
    if k = key then (key, v) :: rest else (k, w) :: setVar rest key v

/-- The regex `/^[0-9][0-9a-f]*$/` (App.tsx lines 179, 309). -/
def hexLitOK : Str → Bool
  | [] => false
  | c :: cs => isDigit c && cs.all hexCont

/-- The regex `/^[A-Z]/` (App.tsx lines 188, 270, 313). -/
def startsUpper : Str → Bool
  | [] => false
  | c :: _ => 'A' ≤ c && c ≤ 'Z'

/-- The regex `/^[a-z_][A-Za-z0-9_]*$/` (App.tsx line 266). -/
def identFullOK : Str → Bool
  | [] => false
  | c :: cs => (('a' ≤ c && c ≤ 'z') || c = '_') && cs.all identCont

/-- Value of one hex digit (the source relies on `parseInt(v, 16)` after
the `/^[0-9][0-9a-f]*$/` check, so only `0-9` and `a-f` occur). -/
def hexDigitVal (c : Char) : Nat :=
  if isDigit c then c.toNat - '0'.toNat
  else c.toNat - 'a'.toNat + 10

/-- `parseInt(value, 16)` on a string matching `/^[0-9][0-9a-f]*$/`. -/
def hexVal (s : Str) : Int :=
  Int.ofNat (s.foldl (fun acc c => 16 * acc + hexDigitVal c) 0)

/-- Decimal rendering of a position, as interpolated by the source's
template literal. -/
def natStr (n : Nat) : Str := (Nat.repr n).toList

/-- Messages produced by the `Parser` class and `processStatement`
(App.tsx lines 133, 160, 173, 180, 189, 194, 204, 211, 267, 270, 277,
280, 309, 313, 316, 320). -/
def msgIncomplete : Str := ("Expression is incomplete".toList)
def msgDivZero : Str := ("Division by zero".toList)
def msgMissingParen : Str := ("Missing closing parenthesis".toList)
def msgInvalidHex (v : Str) : Str := ("Invalid hex literal '".toList) ++ v ++ ['\'']
def msgUpperIdent (v : Str) : Str :=
  ("Identifier '".toList) ++ v ++ ("' cannot start with uppercase letter".toList)
def msgUndefVar (v : Str) : Str := ("Undefined variable '".toList) ++ v ++ ['\'']
def msgUnexpected (v : Str) : Str := ("Unexpected token '".toList) ++ v ++ ['\'']
def msgUnexpectedAt (v : Str) (p : Nat) : Str :=
  ("Unexpected token '".toList) ++ v ++ ("' at position ".toList) ++ natStr p
def msgBadLeft (v : Str) : Str :=
  ("Left side of := must be identifier (got '".toList) ++ v ++ ("')".toList)
def msgUnknownInExpr (v : Str) : Str :=
  ("Unknown token '".toList) ++ v ++ ("' in expression".toList)
def msgCommentInExpr : Str :=
  ("Comment inside expression is not allowed (must end with ';')".toList)
def msgInvalidStandalone (v : Str) : Str :=
  ("Invalid standalone token '".toList) ++ v ++ ['\'']
def msgUnknownBare (v : Str) : Str := ("Unknown token '".toList) ++ v ++ ['\'']
def msgFuel : Str := ("parser fuel exhausted".toList)

/-- Which method of the `Parser` class is being run, together with its
remaining token input.  The source tracks a position index into a fixed
array; consuming a prefix of a token list is the same thing.  The two
`loop` calls are the `while` loops inside `parseAddSub` / `parseMulDiv`,
carrying the accumulated left operand. -/
inductive PCall where
  | factor (ts : List Token)
  | mulDiv (ts : List Token)
  | mulLoop (left : Int) (ts : List Token)
  | addSub (ts : List Token)
  | addLoop (left : Int) (ts : List Token)

/-- Result of a parser method: value plus unconsumed tokens, an error
message (the source's `this.error`), or fuel exhaustion (never reached
with the canonical fuel, see `parseRun_no_fuel`). -/
inductive POut where
  | ok (v : Int) (rest : List Token)
  | err (msg : Str)
  | fuel
deriving DecidableEq, Repr

/-- The recursive-descent evaluator (App.tsx lines 139-213), all methods
in one fuel-indexed dispatcher so the mutual recursion is structural:
`factor` is `parseFactor`, `mulDiv`/`mulLoop` are `parseMulDiv` and its
`while` loop, `addSub`/`addLoop` are `parseAddSub` and its loop.
`Math.floor(left / right)` on integers is `Int.fdiv`. -/
def parseRun : Nat → PCall → VarTable → POut
  | 0, _, _ => POut.fuel
  | Nat.succ f, call, vars =>
    match call with
    | PCall.factor ts =>
      match ts with
      | [] => POut.err msgIncomplete
      | tok :: rest =>
        if tok.type = TType.hex then
          if hexLitOK tok.value then POut.ok (hexVal tok.value) rest
          else POut.err (msgInvalidHex tok.value)
        else if tok.type = TType.identifier then
          if startsUpper tok.value then POut.err (msgUpperIdent tok.value)
          else
            match lookupVar vars tok.value with
            | some v => POut.ok v rest
            | none => POut.err (msgUndefVar tok.value)
        else if tok.type = TType.lparen then
          match parseRun f (PCall.addSub rest) vars with
          | POut.ok v rest' =>
            match rest' with
            | r :: rest'' =>
              if r.type = TType.rparen then POut.ok v rest''
              else POut.err msgMissingParen
            | [] => POut.err msgMissingParen
          | r => r
        else POut.err (msgUnexpected tok.value)
    | PCall.mulDiv ts =>
      match parseRun f (PCall.factor ts) vars with
      | POut.ok v rest => parseRun f (PCall.mulLoop v rest) vars
      | r => r
    | PCall.mulLoop left ts =>
      match ts with
      | tok :: rest =>
        if tok.type = TType.op ∧ (tok.value = ['*'] ∨ tok.value = ['/']) then
          match parseRun f (PCall.factor rest) vars with
          | POut.ok right rest' =>
            if tok.value = ['/'] then
              if right = 0 then POut.err msgDivZero
              else parseRun f (PCall.mulLoop (Int.fdiv left right) rest') vars
            else parseRun f (PCall.mulLoop (left * right) rest') vars
          | r => r
        else POut.ok left ts
      | [] => POut.ok left ts
    | PCall.addSub ts =>
      match parseRun f (PCall.mulDiv ts) vars with
      | POut.ok v rest => parseRun f (PCall.addLoop v rest) vars
      | r => r
    | PCall.addLoop left ts =>
      match ts with
      | tok :: rest =>
        if tok.type = TType.op ∧ (tok.value = ['+'] ∨ tok.value = ['-']) then
          match parseRun f (PCall.mulDiv rest) vars with
          | POut.ok right rest' =>
            if tok.value = ['+'] then parseRun f (PCall.addLoop (left + right) rest') vars
            else parseRun f (PCall.addLoop (left - right) rest') vars
          | r => r
        else POut.ok left ts
      | [] => POut.ok left ts

/-- Canonical fuel used by the pipeline; `parseRun_no_fuel` shows it is
always sufficient. -/
def parserFuel (ts : List Token) : Nat := 3 * ts.length + 3

/-- `parseExpression` (App.tsx lines 128-137): run `parseAddSub` and then
reject unconsumed trailing tokens. -/
def parseExpression (ts : List Token) (vars : VarTable) : POut :=
  match parseRun (parserFuel ts) (PCall.addSub ts) vars with
  | POut.ok v rest =>
    match rest with
    | [] => POut.ok v []
    | t :: _ => POut.err (msgUnexpectedAt t.value t.pos)
  | r => r

/-- `trimmed.startsWith("//")` (App.tsx line 256). -/
def startsSlashSlash : Str → Bool
  | '/' :: '/' :: _ => true
  | _ => false

/-- Helper for `indexOf(":=")`: index of the first occurrence, if any. -/
def findAssignAux : Str → Nat → Option Nat
  | [], _ => none
  | c :: cs, i =>
    if c = ':' ∧ cs.head? = some '=' then some i else findAssignAux cs (i + 1)

/-- `statement.indexOf(":=")` (App.tsx line 261), as an `Option` instead
of the sentinel `-1`. -/
def findAssignIdx (s : Str) : Option Nat := findAssignAux s 0

/-- The value returned by `processStatement`: `{ ok }` or `{ ok, err }`. -/
structure StmtRes where
  ok : Bool
  err : Option Str
deriving DecidableEq, Repr

/-- `true` iff `pat` occurs as a contiguous substring. -/
def containsSub (pat : Str) : Str → Bool
  | [] => pat.isPrefixOf ([] : Str)
  | c :: cs => pat.isPrefixOf (c :: cs) || containsSub pat cs

/-- The test `/Undefined variable|Division by zero/.test(msg)`
(App.tsx lines 288, 326): does the message contain either phrase? -/
def semanticMsg (m : Str) : Bool :=
  containsSub ("Undefined variable".toList) m || containsSub ("Division by zero".toList) m

/-- Left-hand text of an assignment: `statement.slice(0, i).trim()` (App.tsx line 263). -/
def leftRawOf (stmt : Str) (i : Nat) : Str := jsTrim (stmt.take i)

/-- Right-hand text of an assignment: `statement.slice(i + 2).trim()` (App.tsx line 264). -/
def rightRawOf (stmt : Str) (i : Nat) : Str := jsTrim (stmt.drop (i + 2))

/-- The assignment branch of `processStatement` (App.tsx lines 262-297). -/
def processAssign (stmt : Str) (i : Nat) (vars : VarTable) : StmtRes × VarTable :=
  let leftRaw := leftRawOf stmt i
  let rightRaw := rightRawOf stmt i
  if ¬ identFullOK leftRaw then (⟨false, some (msgBadLeft leftRaw)⟩, vars)
  else if startsUpper leftRaw then (⟨false, some (msgUpperIdent leftRaw)⟩, vars)
  else
    let tokens := tokenizeLine rightRaw
    match tokens.find? (fun t => t.type == TType.unknown || t.type == TType.comment) with
    | some t =>
      if t.type == TType.unknown then (⟨false, some (msgUnknownInExpr t.value)⟩, vars)
      else (⟨false, some msgCommentInExpr⟩, vars)
    | none =>
      match parseExpression tokens vars with
      | POut.ok v _ => (⟨true, none⟩, setVar vars leftRaw v)
      | POut.err m =>
        if semanticMsg m then (⟨true, some m⟩, vars) else (⟨false, some m⟩, vars)
      | POut.fuel => (⟨false, some msgFuel⟩, vars)

/-- The bare (no `:=`) branch of `processStatement` (App.tsx lines 300-332). -/
def processBare (stmt : Str) (vars : VarTable) : StmtRes × VarTable :=
  let tokens := tokenizeLine stmt
  match tokens with
  | [] => (⟨true, none⟩, vars)
  | [t] =>
    if t.type == TType.hex then
      if hexLitOK t.value then (⟨true, none⟩, vars)
      else (⟨false, some (msgInvalidHex t.value)⟩, vars)
    else if t.type == TType.identifier then
      if startsUpper t.value then (⟨false, some (msgUpperIdent t.value)⟩, vars)
      else (⟨true, none⟩, vars)
    else (⟨false, some (msgInvalidStandalone t.value)⟩, vars)
  | _ =>
    match tokens.find? (fun t => t.type == TType.unknown) with
    | some t => (⟨false, some (msgUnknownBare t.value)⟩, vars)
    | none =>
      match parseExpression tokens vars with
      | POut.ok _ _ => (⟨true, none⟩, vars)
      | POut.err m =>
        if semanticMsg m then (⟨true, some m⟩, vars) else (⟨false, some m⟩, vars)
      | POut.fuel => (⟨false, some msgFuel⟩, vars)

/-- `processStatement(statement, vars)` (App.tsx lines 253-333). -/
def processStatement (stmt : Str) (vars : VarTable) : StmtRes × VarTable :=
  if startsSlashSlash (jsTrim stmt) then (⟨true, none⟩, vars)
  else
    match findAssignIdx stmt with
    | some i => processAssign stmt i vars
    | none => processBare stmt vars

/-- The two outcome statuses used by `processProgram` (App.tsx line 218). -/
inductive Status where
  | accepted | cancel
deriving DecidableEq, Repr

/-- One element of the `results` array of `processProgram`. -/
structure Outcome where
  raw : Str
  status : Status
  message : Option Str
deriving DecidableEq, Repr

/-- `res.ok ? "accepted" : "cancel"`. -/
def statusOf (ok : Bool) : Status := if ok then Status.accepted else Status.cancel

/-- The splitting loop of `processProgram` (App.tsx lines 223-247):
`current` accumulates characters; a `;` closes a statement (trimmed,
skipped when empty, raw text restored with `";"`); left-over trailing
text is processed without a terminator and its raw text gets the
terminator back only when it was accepted.  The outcome `message` is
`res.ok ? undefined : res.err` (lines 233, 246). -/
def processChars : Str → Str → VarTable → List Outcome × VarTable
  | [], current, vars =>
    let s := jsTrim current
    if s ≠ [] then
      let r := processStatement s vars
      ([⟨s ++ (if r.1.ok then [';'] else []), statusOf r.1.ok,
         if r.1.ok then none else r.1.err⟩], r.2)
    else ([], vars)
  | c :: cs, current, vars =>
    if c = ';' then
      let s := jsTrim current
      if s ≠ [] then
        let r := processStatement s vars
        let rest := processChars cs [] r.2
        (⟨s ++ [';'], statusOf r.1.ok, if r.1.ok then none else r.1.err⟩ :: rest.1, rest.2)
      else processChars cs [] vars
    else processChars cs (current ++ [c]) vars

/-- `processProgram(text)` (App.tsx lines 217-250): run every statement,
threading one variable table from an empty start. -/
def processProgram (text : Str) : List Outcome × VarTable :=
  processChars text [] []

/-- Modelled from the spec: state of the Grammar Validator of spec §4.2,
a component with no counterpart under `src/` — a boolean "expecting an
operand next" and a parenthesis-depth counter. -/
structure ValState where
  expectOperand : Bool
  depth : Nat
deriving DecidableEq, Repr

/-- Modelled from the spec: one token step of the Grammar Validator
(spec §4.2); `none` is a structural rejection.  Unknown and Comment
tokens are rejected anywhere; while expecting an operand a valid hex
literal or lowercase-starting identifier flips the flag and `(` deepens;
otherwise an operator among `+ - * /` flips back and `)` needs positive
depth. -/
def valStep (s : ValState) (t : Token) : Option ValState :=
  match t.type with
  | TType.unknown => none
  | TType.comment => none
  | _ =>
    if s.expectOperand then
      match t.type with
      | TType.hex => if hexLitOK t.value then some ⟨false, s.depth⟩ else none
      | TType.identifier => if startsUpper t.value then none else some ⟨false, s.depth⟩
      | TType.lparen => some ⟨true, s.depth + 1⟩
      | _ => none
    else
      match t.type with
      | TType.op =>
        if t.value = ['+'] ∨ t.value = ['-'] ∨ t.value = ['*'] ∨ t.value = ['/'] then
          some ⟨true, s.depth⟩
        else none
      | TType.rparen => if 0 < s.depth then some ⟨false, s.depth - 1⟩ else none
      | _ => none

/-- Modelled from the spec: the single left-to-right pass of the Grammar
Validator (spec §4.2). -/
def valRun (s : ValState) : List Token → Option ValState
  | [] => some s
  | t :: ts =>
    match valStep s t with
    | some s' => valRun s' ts
    | none => none

/-- Modelled from the spec: `validate(tokens)` of spec §4.2 — run the
pass from the initial state; succeed iff it ends with depth 0 and not
expecting an operand (an empty sequence is rejected as incomplete). -/
def validate (ts : List Token) : Bool :=
  match valRun ⟨true, 0⟩ ts with
  | some ⟨false, 0⟩ => true
  | _ => false

/-- Modelled from the spec: "splitting on `;`" (spec §8, §4.5) — the
segments of the text between terminators, the last element being the
trailing unterminated segment (possibly empty). -/
def splitSemis : Str → List Str
  | [] => [[]]
  | c :: cs =>
    if c = ';' then [] :: splitSemis cs
    else
      match splitSemis cs with
      | s :: rest => (c :: s) :: rest
      | [] => [[c]]

/-- Modelled from the spec: the Program Driver of spec §4.5 described as
"split, then feed each non-empty (after trim) segment in order" — every
segment but the last is terminator-closed (raw text restored with `;`),
the last is the trailing segment (terminator restored only on success);
empty-after-trim segments are skipped. -/
def specDrive : List Str → VarTable → List Outcome × VarTable
  | [], vars => ([], vars)
  | [s], vars =>
    let t := jsTrim s
    if t ≠ [] then
      let r := processStatement t vars
      ([⟨t ++ (if r.1.ok then [';'] else []), statusOf r.1.ok,
         if r.1.ok then none else r.1.err⟩], r.2)
    else ([], vars)
  | s :: s' :: rest, vars =>
    let t := jsTrim s
    if t ≠ [] then
      let r := processStatement t vars
      let k := specDrive (s' :: rest) r.2
      (⟨t ++ [';'], statusOf r.1.ok, if r.1.ok then none else r.1.err⟩ :: k.1, k.2)
    else specDrive (s' :: rest) vars

/-- Token input of a parser call. -/
def pcallTs : PCall → List Token
  | PCall.factor ts => ts
  | PCall.mulDiv ts => ts
  | PCall.mulLoop _ ts => ts
  | PCall.addSub ts => ts
  | PCall.addLoop _ ts => ts

/-- Validator flag at the entry of a parser call: the three operand
parsers start expecting an operand, the two loops start after one. -/
def pcallFlag : PCall → Bool
  | PCall.factor _ => true
  | PCall.mulDiv _ => true
  | PCall.mulLoop _ _ => false
  | PCall.addSub _ => true
  | PCall.addLoop _ _ => false

/-- Fuel threshold above which each parser call can never exhaust its fuel. -/
def fuelNeed : PCall → Nat
  | PCall.factor ts => 3 * ts.length + 1
  | PCall.mulDiv ts => 3 * ts.length + 2
  | PCall.mulLoop _ ts => 3 * ts.length + 1
  | PCall.addSub ts => 3 * ts.length + 3
  | PCall.addLoop _ ts => 3 * ts.length + 1

/-- Prefix the first segment with the driver's pending accumulator. -/
def prependFirst (cur : Str) : List Str → List Str
  | [] => [cur]
  | s :: rest => (cur ++ s) :: rest

/-! ### Examples: concrete sanity checks of the embedding -/

example : tokenizeLine ("1 + 2b".toList) =
    [⟨TType.hex, ['1'], 0⟩, ⟨TType.op, ['+'], 2⟩, ⟨TType.hex, ['2', 'b'], 4⟩] := by decide

example : tokenizeLine ("x := //c;".toList) =
    [⟨TType.identifier, ['x'], 0⟩, ⟨TType.assign, [':', '='], 2⟩,
     ⟨TType.comment, "//c;".toList, 5⟩] := by decide

example : jsTrim ("  a b ".toList) = "a b".toList := by decide

example : parseExpression (tokenizeLine ("2 + 3 * 4".toList)) [] = POut.ok 14 [] := by decide
example : parseExpression (tokenizeLine ("(0 - 1) / 2".toList)) [] = POut.ok (-1) [] := by decide
example : parseExpression (tokenizeLine ("1 / 0".toList)) [] = POut.err msgDivZero := by decide
example : parseExpression (tokenizeLine ("x".toList)) [] = POut.err (msgUndefVar ['x']) := by
  decide
example : parseExpression (tokenizeLine ("5 +".toList)) [] = POut.err msgIncomplete := by decide

example :
    processProgram ("abc := 1a5 + 2f;".toList) =
      ([⟨"abc := 1a5 + 2f;".toList, Status.accepted, none⟩], [("abc".toList, 468)]) := by
  decide

example :
    processProgram ("undef := 5 + ;".toList) =
      ([⟨"undef := 5 +;".toList, Status.cancel, some msgIncomplete⟩], []) := by
  decide

example :
    (processProgram ("new := a + b * 2;".toList)).1 =
      [⟨"new := a + b * 2;".toList, Status.accepted, none⟩] := by
  decide

example : validate (tokenizeLine ("(1a + b) * c".toList)) = true := by decide
example : validate (tokenizeLine ("1 +".toList)) = false := by decide
example : validate (tokenizeLine ("1;".toList)) = false := by decide
example : validate ([] : List Token) = false := by decide

example : splitSemis ("a;;b".toList) = ["a".toList, [], "b".toList] := by decide
example : splitSemis ("a;".toList) = ["a".toList, []] := by decide

/-! ### Small helper lemmas -/

theorem dropWhile_length_le (p : Char → Bool) : ∀ l : Str, (l.dropWhile p).length ≤ l.length
  | [] => Nat.le_refl _
  | c :: cs => by
    by_cases h : p c
    · simpa [List.dropWhile, h] using Nat.le_succ_of_le (dropWhile_length_le p cs)
    · simp [List.dropWhile, h]

theorem valRun_append (s : ValState) (xs ys : List Token) :
    valRun s (xs ++ ys) =
      match valRun s xs with
      | some s' => valRun s' ys
      | none => none := by
  induction xs generalizing s with
  | nil => simp [valRun]
  | cons t ts ih =>
    simp only [List.cons_append, valRun]
    cases valStep s t with
    | some s' => exact ih s'
    | none => rfl

theorem identFullOK_not_upper {l : Str} (h : identFullOK l = true) :
    startsUpper l = false := by
  cases l with
  | nil => simp [identFullOK] at h
  | cons c cs =>
    simp only [identFullOK, Bool.and_eq_true, Bool.or_eq_true, decide_eq_true_eq] at h
    simp only [startsUpper, Bool.and_eq_false_iff, decide_eq_false_iff_not]
    rcases h.1 with h' | h'
    · right
      intro hZ
      exact absurd (le_trans h'.1 hZ) (by decide)
    · subst h'
      right
      decide

theorem tokWS_jsWS {c : Char} (h : tokWS c = true) : jsWS c = true := by
  simp only [tokWS, Bool.or_eq_true, decide_eq_true_eq] at h
  rcases h with ((h | h) | h) | h <;> subst h <;> decide

theorem jsTrim_cons_ws {c : Char} (h : jsWS c = true) (l : Str) :
    jsTrim (c :: l) = jsTrim l := by
  simp [jsTrim, List.dropWhile, h]

theorem trimRight_ne_nil {c : Char} (h : jsWS c = false) (l : Str) :
    trimRight (c :: l) ≠ [] := by
  simp only [trimRight]
  cases trimRight l with
  | nil => simp [h]
  | cons x xs => simp

theorem jsTrim_slashslash (r : Str) :
    startsSlashSlash (jsTrim ('/' :: '/' :: r)) = true := by
  have hs : jsWS '/' = false := by decide
  simp only [jsTrim, List.dropWhile_cons, hs, Bool.false_eq_true, if_false]
  cases hr : trimRight r with
  | nil => simp [trimRight, hr, hs, startsSlashSlash]
  | cons x xs => simp [trimRight, hr, hs, startsSlashSlash]

/-! ### Tokenizer lemmas -/

theorem tokenizeAuxF_total :
    ∀ (f : Nat) (l : Str) (p : Nat), l.length < f → ∃ ts, tokenizeAuxF f l p = some ts := by
  intro f
  induction f with
  | zero => exact fun l p h => absurd h (Nat.not_lt_zero _)
  | succ f ih =>
    intro l p h
    cases l with
    | nil => exact ⟨[], rfl⟩
    | cons c cs =>
      have hcs : cs.length < f := by simp only [List.length_cons] at h; omega
      have htail : cs.tail.length < f :=
        Nat.lt_of_le_of_lt (by cases cs <;> simp) hcs
      have hdropI : (cs.dropWhile identCont).length < f :=
        Nat.lt_of_le_of_lt (dropWhile_length_le _ _) hcs
      have hdropH : (cs.dropWhile hexCont).length < f :=
        Nat.lt_of_le_of_lt (dropWhile_length_le _ _) hcs
      simp only [tokenizeAuxF]
      by_cases h1 : tokWS c = true
      · obtain ⟨ts, hts⟩ := ih cs (p + 1) hcs
        exact ⟨ts, by rw [if_pos h1, hts]⟩
      rw [if_neg h1]
      by_cases h2 : (c = '/' && (cs.head? = some '/')) = true
      · exact ⟨[⟨TType.comment, c :: cs, p⟩], by rw [if_pos h2]⟩
      rw [if_neg h2]
      by_cases h3 : c = ':'
      · rw [if_pos h3]
        by_cases h4 : cs.head? = some '='
        · obtain ⟨ts, hts⟩ := ih cs.tail (p + 2) htail
          exact ⟨⟨TType.assign, [':', '='], p⟩ :: ts, by rw [if_pos h4, hts]; rfl⟩
        · obtain ⟨ts, hts⟩ := ih cs (p + 1) hcs
          exact ⟨⟨TType.unknown, [':'], p⟩ :: ts, by rw [if_neg h4, hts]; rfl⟩
      rw [if_neg h3]
      by_cases h5 : c = '('
      · obtain ⟨ts, hts⟩ := ih cs (p + 1) hcs
        exact ⟨⟨TType.lparen, [c], p⟩ :: ts, by rw [if_pos h5, hts]; rfl⟩
      rw [if_neg h5]
      by_cases h6 : c = ')'
      · obtain ⟨ts, hts⟩ := ih cs (p + 1) hcs
        exact ⟨⟨TType.rparen, [c], p⟩ :: ts, by rw [if_pos h6, hts]; rfl⟩
      rw [if_neg h6]
      by_cases h7 : (c = '+' || c = '-' || c = '*' || c = '/') = true
      · obtain ⟨ts, hts⟩ := ih cs (p + 1) hcs
        exact ⟨⟨TType.op, [c], p⟩ :: ts, by rw [if_pos h7, hts]; rfl⟩
      rw [if_neg h7]
      by_cases h8 : isIdentifierStart c = true
      · obtain ⟨ts, hts⟩ :=
          ih (cs.dropWhile identCont) (p + 1 + (cs.takeWhile identCont).length) hdropI
        exact ⟨⟨TType.identifier, c :: cs.takeWhile identCont, p⟩ :: ts,
          by rw [if_pos h8]; show (tokenizeAuxF f (cs.dropWhile identCont) (p + 1 + (cs.takeWhile identCont).length)).map _ = _; rw [hts]; rfl⟩
      rw [if_neg h8]
      by_cases h9 : isDigit c = true
      · obtain ⟨ts, hts⟩ :=
          ih (cs.dropWhile hexCont) (p + 1 + (cs.takeWhile hexCont).length) hdropH
        exact ⟨⟨TType.hex, c :: cs.takeWhile hexCont, p⟩ :: ts,
          by rw [if_pos h9]; show (tokenizeAuxF f (cs.dropWhile hexCont) (p + 1 + (cs.takeWhile hexCont).length)).map _ = _; rw [hts]; rfl⟩
      rw [if_neg h9]
      obtain ⟨ts, hts⟩ := ih cs (p + 1) hcs
      exact ⟨⟨TType.unknown, [c], p⟩ :: ts, by rw [hts]; rfl⟩

theorem tokenizeLine_eq_of_aux {l : Str} {ts : List Token}
    (h : tokenizeAuxF (l.length + 1) l 0 = some ts) : tokenizeLine l = ts := by
  simp [tokenizeLine, h]

theorem tokenizeLine_some (l : Str) :
    ∃ ts, tokenizeAuxF (l.length + 1) l 0 = some ts ∧ tokenizeLine l = ts := by
  obtain ⟨ts, hts⟩ := tokenizeAuxF_total (l.length + 1) l 0 (Nat.lt_succ_self _)
  exact ⟨ts, hts, tokenizeLine_eq_of_aux hts⟩

theorem tokenizeAuxF_no_semicolon :
    ∀ (f : Nat) (l : Str) (p : Nat) (ts : List Token), tokenizeAuxF f l p = some ts →
      ∀ t ∈ ts, t.type ≠ TType.semicolon := by
  intro f
  induction f with
  | zero => intro l p ts h; exact absurd h (by simp [tokenizeAuxF])
  | succ f ih =>
    intro l p ts h
    cases l with
    | nil =>
      injection h with h'
      subst h'
      intro t ht
      cases ht
    | cons c cs =>
      simp only [tokenizeAuxF] at h
      by_cases h1 : tokWS c = true
      · rw [if_pos h1] at h
        exact ih cs (p + 1) ts h
      rw [if_neg h1] at h
      by_cases h2 : (c = '/' && (cs.head? = some '/')) = true
      · rw [if_pos h2] at h
        injection h with h'
        subst h'
        intro t ht
        rcases List.mem_singleton.mp ht with rfl
        simp
      rw [if_neg h2] at h
      by_cases h3 : c = ':'
      · rw [if_pos h3] at h
        by_cases h4 : cs.head? = some '='
        · rw [if_pos h4] at h
          obtain ⟨ts', h', heq⟩ := Option.map_eq_some'.mp h
          subst heq
          intro t ht
          rcases List.mem_cons.mp ht with rfl | htl
          · simp
          · exact ih _ _ _ h' t htl
        · rw [if_neg h4] at h
          obtain ⟨ts', h', heq⟩ := Option.map_eq_some'.mp h
          subst heq
          intro t ht
          rcases List.mem_cons.mp ht with rfl | htl
          · simp
          · exact ih _ _ _ h' t htl
      rw [if_neg h3] at h
      by_cases h5 : c = '('
      · rw [if_pos h5] at h
        obtain ⟨ts', h', heq⟩ := Option.map_eq_some'.mp h
        subst heq
        intro t ht
        rcases List.mem_cons.mp ht with rfl | htl
        · simp
        · exact ih _ _ _ h' t htl
      rw [if_neg h5] at h
      by_cases h6 : c = ')'
      · rw [if_pos h6] at h
        obtain ⟨ts', h', heq⟩ := Option.map_eq_some'.mp h
        subst heq
        intro t ht
        rcases List.mem_cons.mp ht with rfl | htl
        · simp
        · exact ih _ _ _ h' t htl
      rw [if_neg h6] at h
      by_cases h7 : (c = '+' || c = '-' || c = '*' || c = '/') = true
      · rw [if_pos h7] at h
        obtain ⟨ts', h', heq⟩ := Option.map_eq_some'.mp h
        subst heq
        intro t ht
        rcases List.mem_cons.mp ht with rfl | htl
        · simp
        · exact ih _ _ _ h' t htl
      rw [if_neg h7] at h
      by_cases h8 : isIdentifierStart c = true
      · rw [if_pos h8] at h
        obtain ⟨ts', h', heq⟩ := Option.map_eq_some'.mp h
        subst heq
        intro t ht
        rcases List.mem_cons.mp ht with rfl | htl
        · simp
        · exact ih _ _ _ h' t htl
      rw [if_neg h8] at h
      by_cases h9 : isDigit c = true
      · rw [if_pos h9] at h
        obtain ⟨ts', h', heq⟩ := Option.map_eq_some'.mp h
        subst heq
        intro t ht
        rcases List.mem_cons.mp ht with rfl | htl
        · simp
        · exact ih _ _ _ h' t htl
      rw [if_neg h9] at h
      obtain ⟨ts', h', heq⟩ := Option.map_eq_some'.mp h
      subst heq
      intro t ht
      rcases List.mem_cons.mp ht with rfl | htl
      · simp
      · exact ih _ _ _ h' t htl

theorem tokenizeAuxF_semi_step (cs : Str) (p f : Nat) :
    tokenizeAuxF (f + 1) (';' :: cs) p =
      (tokenizeAuxF f cs (p + 1)).map (⟨TType.unknown, [';'], p⟩ :: ·) := rfl

theorem tokenizeLine_no_semicolon (l : Str) :
    ∀ t ∈ tokenizeLine l, t.type ≠ TType.semicolon := by
  obtain ⟨ts, hts, hline⟩ := tokenizeLine_some l
  rw [hline]
  exact tokenizeAuxF_no_semicolon _ _ _ _ hts

theorem tokenizeAuxF_head_comment :
    ∀ (f : Nat) (l : Str) (p : Nat) (v : Str) (q : Nat) (tl : List Token),
      tokenizeAuxF f l p = some (⟨TType.comment, v, q⟩ :: tl) →
      startsSlashSlash (jsTrim l) = true := by
  intro f
  induction f with
  | zero => intro l p v q tl h; exact absurd h (by simp [tokenizeAuxF])
  | succ f ih =>
    intro l p v q tl h
    cases l with
    | nil => injection h with h'; cases h'
    | cons c cs =>
      simp only [tokenizeAuxF] at h
      by_cases h1 : tokWS c = true
      · rw [if_pos h1] at h
        rw [jsTrim_cons_ws (tokWS_jsWS h1)]
        exact ih cs (p + 1) v q tl h
      rw [if_neg h1] at h
      by_cases h2 : (c = '/' && (cs.head? = some '/')) = true
      · simp only [Bool.and_eq_true, decide_eq_true_eq] at h2
        obtain ⟨rfl, hh⟩ := h2
        cases cs with
        | nil => cases hh
        | cons d cs' =>
          injection hh with hd
          subst hd
          exact jsTrim_slashslash cs'
      rw [if_neg h2] at h
      by_cases h3 : c = ':'
      · rw [if_pos h3] at h
        by_cases h4 : cs.head? = some '='
        · rw [if_pos h4] at h
          obtain ⟨ts', h', heq⟩ := Option.map_eq_some'.mp h
          simp at heq
        · rw [if_neg h4] at h
          obtain ⟨ts', h', heq⟩ := Option.map_eq_some'.mp h
          simp at heq
      rw [if_neg h3] at h
      by_cases h5 : c = '('
      · rw [if_pos h5] at h
        obtain ⟨ts', h', heq⟩ := Option.map_eq_some'.mp h
        simp at heq
      rw [if_neg h5] at h
      by_cases h6 : c = ')'
      · rw [if_pos h6] at h
        obtain ⟨ts', h', heq⟩ := Option.map_eq_some'.mp h
        simp at heq
      rw [if_neg h6] at h
      by_cases h7 : (c = '+' || c = '-' || c = '*' || c = '/') = true
      · rw [if_pos h7] at h
        obtain ⟨ts', h', heq⟩ := Option.map_eq_some'.mp h
        simp at heq
      rw [if_neg h7] at h
      by_cases h8 : isIdentifierStart c = true
      · rw [if_pos h8] at h
        obtain ⟨ts', h', heq⟩ := Option.map_eq_some'.mp h
        simp at heq
      rw [if_neg h8] at h
      by_cases h9 : isDigit c = true
      · rw [if_pos h9] at h
        obtain ⟨ts', h', heq⟩ := Option.map_eq_some'.mp h
        simp at heq
      rw [if_neg h9] at h
      obtain ⟨ts', h', heq⟩ := Option.map_eq_some'.mp h
      simp at heq

theorem tokenizeLine_head_comment {l : Str} {v : Str} {q : Nat} {tl : List Token}
    (h : tokenizeLine l = ⟨TType.comment, v, q⟩ :: tl) :
    startsSlashSlash (jsTrim l) = true := by
  obtain ⟨ts, hts, hline⟩ := tokenizeLine_some l
  rw [hline] at h
  subst h
  exact tokenizeAuxF_head_comment _ _ _ _ _ _ hts

/-! ### Parser lemmas -/

theorem valStep_op {d : Nat} {t : Token} (ht : t.type = TType.op)
    (hv : t.value = ['+'] ∨ t.value = ['-'] ∨ t.value = ['*'] ∨ t.value = ['/']) :
    valStep ⟨false, d⟩ t = some ⟨true, d⟩ := by
  simp [valStep, ht, hv]

/-- A successful parser call consumes a prefix of its input, and the
spec's Grammar Validator accepts that prefix at any depth, ending with
the matching state flip. -/
theorem parseRun_ok_sound :
    ∀ (f : Nat) (c : PCall) (vars : VarTable) (v : Int) (rest : List Token),
      parseRun f c vars = POut.ok v rest →
      ∃ pre, pcallTs c = pre ++ rest ∧
        ∀ d : Nat, valRun ⟨pcallFlag c, d⟩ pre = some ⟨false, d⟩ := by
  intro f
  induction f with
  | zero => intro c vars v rest h; exact absurd h (by simp [parseRun])
  | succ f ih =>
    intro c vars v rest h
    cases c with
    | factor ts =>
      simp only [pcallTs, pcallFlag]
      cases ts with
      | nil => simp [parseRun] at h
      | cons tok rest0 =>
        simp only [parseRun] at h
        by_cases hhex : tok.type = TType.hex
        · rw [if_pos hhex] at h
          by_cases hlit : hexLitOK tok.value = true
          · rw [if_pos hlit] at h
            obtain ⟨rfl, rfl⟩ := POut.ok.inj h
            exact ⟨[tok], rfl, fun d => by simp [valRun, valStep, hhex, hlit]⟩
          · rw [if_neg hlit] at h; cases h
        rw [if_neg hhex] at h
        by_cases hid : tok.type = TType.identifier
        · rw [if_pos hid] at h
          by_cases hup : startsUpper tok.value = true
          · rw [if_pos hup] at h; cases h
          · rw [if_neg hup] at h
            cases hlk : lookupVar vars tok.value with
            | none => rw [hlk] at h; cases h
            | some w =>
              rw [hlk] at h
              obtain ⟨rfl, rfl⟩ := POut.ok.inj h
              refine ⟨[tok], rfl, fun d => ?_⟩
              simp [valRun, valStep, hid, hup]
        rw [if_neg hid] at h
        by_cases hlp : tok.type = TType.lparen
        · rw [if_pos hlp] at h
          cases hin : parseRun f (PCall.addSub rest0) vars with
          | ok v1 rest1 =>
            simp only [hin] at h
            cases rest1 with
            | nil => simp at h
            | cons r rest2 =>
              by_cases hr : r.type = TType.rparen
              · simp only [if_pos hr] at h
                obtain ⟨rfl, rfl⟩ := POut.ok.inj h
                obtain ⟨preA, hA, hvA⟩ := ih _ _ _ _ hin
                simp only [pcallTs, pcallFlag] at hA hvA
                refine ⟨tok :: (preA ++ [r]), ?_, fun d => ?_⟩
                · simp [hA, List.append_assoc]
                · have hstep : valStep ⟨true, d⟩ tok = some ⟨true, d + 1⟩ := by
                    simp [valStep, hlp]
                  have hrstep : valStep ⟨false, d + 1⟩ r = some ⟨false, d⟩ := by
                    simp [valStep, hr]
                  simp only [valRun, hstep, valRun_append, hvA (d + 1), hrstep]
              · simp only [if_neg hr] at h
                cases h
          | err m => simp only [hin] at h; cases h
          | fuel => simp only [hin] at h; cases h
        rw [if_neg hlp] at h
        cases h
    | mulDiv ts =>
      simp only [pcallTs, pcallFlag]
      cases hin : parseRun f (PCall.factor ts) vars with
      | ok v1 rest1 =>
        simp only [parseRun, hin] at h
        obtain ⟨preF, hF, hvF⟩ := ih _ _ _ _ hin
        obtain ⟨preL, hL, hvL⟩ := ih _ _ _ _ h
        simp only [pcallTs, pcallFlag] at hF hvF hL hvL
        refine ⟨preF ++ preL, ?_, fun d => ?_⟩
        · simp [hF, hL, List.append_assoc]
        · simp only [valRun_append, hvF d, hvL d]
      | err m => simp only [parseRun, hin] at h; cases h
      | fuel => simp only [parseRun, hin] at h; cases h
    | mulLoop left ts =>
      simp only [pcallTs, pcallFlag]
      cases ts with
      | nil =>
        simp only [parseRun] at h
        obtain ⟨rfl, rfl⟩ := POut.ok.inj h
        exact ⟨[], rfl, fun d => by simp [valRun]⟩
      | cons tok rest0 =>
        simp only [parseRun] at h
        by_cases hop : tok.type = TType.op ∧ (tok.value = ['*'] ∨ tok.value = ['/'])
        · rw [if_pos hop] at h
          cases hin : parseRun f (PCall.factor rest0) vars with
          | ok r1 rest1 =>
            simp only [hin] at h
            obtain ⟨preF, hF, hvF⟩ := ih _ _ _ _ hin
            simp only [pcallTs, pcallFlag] at hF hvF
            have hstep : ∀ d : Nat, valStep ⟨false, d⟩ tok = some ⟨true, d⟩ := fun d =>
              valStep_op hop.1 (by rcases hop.2 with h' | h' <;> simp [h'])
            by_cases hdiv : tok.value = ['/']
            · rw [if_pos hdiv] at h
              by_cases hz : r1 = 0
              · rw [if_pos hz] at h; cases h
              · rw [if_neg hz] at h
                obtain ⟨preL, hL, hvL⟩ := ih _ _ _ _ h
                simp only [pcallTs, pcallFlag] at hL hvL
                refine ⟨tok :: (preF ++ preL), ?_, fun d => ?_⟩
                · simp [hF, hL, List.append_assoc]
                · simp only [valRun, hstep d, valRun_append, hvF d, hvL d]
            · rw [if_neg hdiv] at h
              obtain ⟨preL, hL, hvL⟩ := ih _ _ _ _ h
              simp only [pcallTs, pcallFlag] at hL hvL
              refine ⟨tok :: (preF ++ preL), ?_, fun d => ?_⟩
              · simp [hF, hL, List.append_assoc]
              · simp only [valRun, hstep d, valRun_append, hvF d, hvL d]
          | err m => simp only [hin] at h; cases h
          | fuel => simp only [hin] at h; cases h
        · rw [if_neg hop] at h
          obtain ⟨rfl, rfl⟩ := POut.ok.inj h
          exact ⟨[], rfl, fun d => by simp [valRun]⟩
    | addSub ts =>
      simp only [pcallTs, pcallFlag]
      cases hin : parseRun f (PCall.mulDiv ts) vars with
      | ok v1 rest1 =>
        simp only [parseRun, hin] at h
        obtain ⟨preF, hF, hvF⟩ := ih _ _ _ _ hin
        obtain ⟨preL, hL, hvL⟩ := ih _ _ _ _ h
        simp only [pcallTs, pcallFlag] at hF hvF hL hvL
        refine ⟨preF ++ preL, ?_, fun d => ?_⟩
        · simp [hF, hL, List.append_assoc]
        · simp only [valRun_append, hvF d, hvL d]
      | err m => simp only [parseRun, hin] at h; cases h
      | fuel => simp only [parseRun, hin] at h; cases h
    | addLoop left ts =>
      simp only [pcallTs, pcallFlag]
      cases ts with
      | nil =>
        simp only [parseRun] at h
        obtain ⟨rfl, rfl⟩ := POut.ok.inj h
        exact ⟨[], rfl, fun d => by simp [valRun]⟩
      | cons tok rest0 =>
        simp only [parseRun] at h
        by_cases hop : tok.type = TType.op ∧ (tok.value = ['+'] ∨ tok.value = ['-'])
        · rw [if_pos hop] at h
          cases hin : parseRun f (PCall.mulDiv rest0) vars with
          | ok r1 rest1 =>
            simp only [hin] at h
            obtain ⟨preF, hF, hvF⟩ := ih _ _ _ _ hin
            simp only [pcallTs, pcallFlag] at hF hvF
            have hstep : ∀ d : Nat, valStep ⟨false, d⟩ tok = some ⟨true, d⟩ := fun d =>
              valStep_op hop.1 (by rcases hop.2 with h' | h' <;> simp [h'])
            by_cases hplus : tok.value = ['+']
            · rw [if_pos hplus] at h
              obtain ⟨preL, hL, hvL⟩ := ih _ _ _ _ h
              simp only [pcallTs, pcallFlag] at hL hvL
              refine ⟨tok :: (preF ++ preL), ?_, fun d => ?_⟩
              · simp [hF, hL, List.append_assoc]
              · simp only [valRun, hstep d, valRun_append, hvF d, hvL d]
            · rw [if_neg hplus] at h
              obtain ⟨preL, hL, hvL⟩ := ih _ _ _ _ h
              simp only [pcallTs, pcallFlag] at hL hvL
              refine ⟨tok :: (preF ++ preL), ?_, fun d => ?_⟩
              · simp [hF, hL, List.append_assoc]
              · simp only [valRun, hstep d, valRun_append, hvF d, hvL d]
          | err m => simp only [hin] at h; cases h
          | fuel => simp only [hin] at h; cases h
        · rw [if_neg hop] at h
          obtain ⟨rfl, rfl⟩ := POut.ok.inj h
          exact ⟨[], rfl, fun d => by simp [valRun]⟩

theorem parseRun_ok_length {f : Nat} {c : PCall} {vars : VarTable} {v : Int}
    {rest : List Token} (h : parseRun f c vars = POut.ok v rest) :
    rest.length ≤ (pcallTs c).length ∧
      (pcallFlag c = true → rest.length < (pcallTs c).length) := by
  obtain ⟨pre, hpre, hval⟩ := parseRun_ok_sound f c vars v rest h
  constructor
  · simp [hpre]
  · intro hflag
    have hne : pre ≠ [] := by
      intro hnil
      have hv := hval 0
      rw [hnil, hflag] at hv
      simp [valRun] at hv
    have hlen : 1 ≤ pre.length := by
      cases pre with
      | nil => exact absurd rfl hne
      | cons a l => simp
    simp only [hpre, List.length_append]
    omega

theorem parseRun_no_fuel :
    ∀ (f : Nat) (c : PCall) (vars : VarTable), fuelNeed c ≤ f →
      parseRun f c vars ≠ POut.fuel := by
  intro f
  induction f with
  | zero => intro c vars hle; cases c <;> simp [fuelNeed] at hle
  | succ f ih =>
    intro c vars hle
    cases c with
    | factor ts =>
      cases ts with
      | nil => simp [parseRun]
      | cons tok rest0 =>
        simp only [parseRun]
        by_cases hhex : tok.type = TType.hex
        · rw [if_pos hhex]
          by_cases hlit : hexLitOK tok.value = true
          · rw [if_pos hlit]; simp
          · rw [if_neg hlit]; simp
        rw [if_neg hhex]
        by_cases hid : tok.type = TType.identifier
        · rw [if_pos hid]
          by_cases hup : startsUpper tok.value = true
          · rw [if_pos hup]; simp
          · rw [if_neg hup]; cases lookupVar vars tok.value <;> simp
        rw [if_neg hid]
        by_cases hlp : tok.type = TType.lparen
        · rw [if_pos hlp]
          have harith : fuelNeed (PCall.addSub rest0) ≤ f := by
            simp only [fuelNeed, List.length_cons] at hle ⊢; omega
          cases hin : parseRun f (PCall.addSub rest0) vars with
          | ok v1 rest1 =>
            simp only [hin]
            cases rest1 with
            | nil => simp
            | cons r rest2 =>
              by_cases hr : r.type = TType.rparen
              · simp [hr]
              · simp [hr]
          | err m => simp [hin]
          | fuel => exact absurd hin (ih _ _ harith)
        rw [if_neg hlp]; simp
    | mulDiv ts =>
      have harithF : fuelNeed (PCall.factor ts) ≤ f := by
        simp only [fuelNeed] at hle ⊢; omega
      simp only [parseRun]
      cases hin : parseRun f (PCall.factor ts) vars with
      | ok v1 rest1 =>
        have hlen : rest1.length < ts.length := (parseRun_ok_length hin).2 rfl
        simp only [hin]
        exact ih _ _ (by simp only [fuelNeed] at hle ⊢; omega)
      | err m => simp [hin]
      | fuel => exact absurd hin (ih _ _ harithF)
    | mulLoop left ts =>
      cases ts with
      | nil => simp [parseRun]
      | cons tok rest0 =>
        simp only [parseRun]
        by_cases hop : tok.type = TType.op ∧ (tok.value = ['*'] ∨ tok.value = ['/'])
        · rw [if_pos hop]
          have harithF : fuelNeed (PCall.factor rest0) ≤ f := by
            simp only [fuelNeed, List.length_cons] at hle ⊢; omega
          cases hin : parseRun f (PCall.factor rest0) vars with
          | ok r1 rest1 =>
            have hlen : rest1.length < rest0.length := (parseRun_ok_length hin).2 rfl
            simp only [hin]
            by_cases hdiv : tok.value = ['/']
            · rw [if_pos hdiv]
              by_cases hz : r1 = 0
              · rw [if_pos hz]; simp
              · rw [if_neg hz]
                exact ih _ _ (by simp only [fuelNeed, List.length_cons] at hle ⊢; omega)
            · rw [if_neg hdiv]
              exact ih _ _ (by simp only [fuelNeed, List.length_cons] at hle ⊢; omega)
          | err m => simp [hin]
          | fuel => exact absurd hin (ih _ _ harithF)
        · rw [if_neg hop]; simp
    | addSub ts =>
      have harithF : fuelNeed (PCall.mulDiv ts) ≤ f := by
        simp only [fuelNeed] at hle ⊢; omega
      simp only [parseRun]
      cases hin : parseRun f (PCall.mulDiv ts) vars with
      | ok v1 rest1 =>
        have hlen : rest1.length < ts.length := (parseRun_ok_length hin).2 rfl
        simp only [hin]
        exact ih _ _ (by simp only [fuelNeed] at hle ⊢; omega)
      | err m => simp [hin]
      | fuel => exact absurd hin (ih _ _ harithF)
    | addLoop left ts =>
      cases ts with
      | nil => simp [parseRun]
      | cons tok rest0 =>
        simp only [parseRun]
        by_cases hop : tok.type = TType.op ∧ (tok.value = ['+'] ∨ tok.value = ['-'])
        · rw [if_pos hop]
          have harithF : fuelNeed (PCall.mulDiv rest0) ≤ f := by
            simp only [fuelNeed, List.length_cons] at hle ⊢; omega
          cases hin : parseRun f (PCall.mulDiv rest0) vars with
          | ok r1 rest1 =>
            have hlen : rest1.length < rest0.length := (parseRun_ok_length hin).2 rfl
            simp only [hin]
            by_cases hplus : tok.value = ['+']
            · rw [if_pos hplus]
              exact ih _ _ (by simp only [fuelNeed, List.length_cons] at hle ⊢; omega)
            · rw [if_neg hplus]
              exact ih _ _ (by simp only [fuelNeed, List.length_cons] at hle ⊢; omega)
          | err m => simp [hin]
          | fuel => exact absurd hin (ih _ _ harithF)
        · rw [if_neg hop]; simp

/-- The canonical fuel `3 * tokens.length + 3` used by `parseExpression`
is always sufficient: the model never reports fuel exhaustion, so the
fuel parameter is a pure accounting device. -/
theorem parseExpression_ne_fuel (ts : List Token) (vars : VarTable) :
    parseExpression ts vars ≠ POut.fuel := by
  unfold parseExpression
  cases hr : parseRun (parserFuel ts) (PCall.addSub ts) vars with
  | ok v rest => cases rest <;> simp
  | err m => simp
  | fuel =>
    exact absurd hr (parseRun_no_fuel _ _ _ (by simp [fuelNeed, parserFuel]))

theorem parseExpression_ok_inv {ts : List Token} {vars : VarTable} {v : Int}
    {rest : List Token} (h : parseExpression ts vars = POut.ok v rest) :
    parseRun (parserFuel ts) (PCall.addSub ts) vars = POut.ok v [] ∧ rest = [] := by
  unfold parseExpression at h
  cases hr : parseRun (parserFuel ts) (PCall.addSub ts) vars with
  | ok v1 rest1 =>
    rw [hr] at h
    cases rest1 with
    | nil =>
      obtain ⟨rfl, rfl⟩ := POut.ok.inj h
      exact ⟨rfl, rfl⟩
    | cons t rest2 => cases h
  | err m => rw [hr] at h; cases h
  | fuel => rw [hr] at h; cases h

theorem validate_of_ok {ts : List Token} {vars : VarTable} {v : Int}
    {rest : List Token} (h : parseExpression ts vars = POut.ok v rest) :
    validate ts = true := by
  obtain ⟨hrun, -⟩ := parseExpression_ok_inv h
  obtain ⟨pre, hpre, hval⟩ := parseRun_ok_sound _ _ _ _ _ hrun
  simp only [pcallTs, pcallFlag, List.append_nil] at hpre hval
  subst hpre
  simp [validate, hval 0]

/-! ### Driver lemmas -/

theorem splitSemis_ne_nil (cs : Str) : splitSemis cs ≠ [] := by
  cases cs with
  | nil => simp [splitSemis]
  | cons c cs =>
    simp only [splitSemis]
    split
    · simp
    · split <;> simp

theorem prependFirst_nil {l : List Str} (hl : l ≠ []) : prependFirst [] l = l := by
  cases l with
  | nil => exact absurd rfl hl
  | cons s rest => simp [prependFirst]

theorem processChars_eq_specDrive :
    ∀ (cs : Str) (cur : Str) (vars : VarTable),
      processChars cs cur vars = specDrive (prependFirst cur (splitSemis cs)) vars := by
  intro cs
  induction cs with
  | nil =>
    intro cur vars
    simp [splitSemis, prependFirst, processChars, specDrive]
  | cons c cs ih =>
    intro cur vars
    obtain ⟨s0, rest0, hsplit⟩ : ∃ s0 rest0, splitSemis cs = s0 :: rest0 := by
      cases h : splitSemis cs with
      | nil => exact absurd h (splitSemis_ne_nil cs)
      | cons a b => exact ⟨a, b, rfl⟩
    have ihX : ∀ X : VarTable, processChars cs [] X = specDrive (s0 :: rest0) X := by
      intro X
      rw [ih [] X, hsplit]
      simp [prependFirst]
    by_cases hc : c = ';'
    · subst hc
      simp only [splitSemis, if_pos rfl, prependFirst, List.append_nil, hsplit]
      simp only [processChars, if_pos rfl, specDrive, ihX]
      simp
    · simp only [splitSemis, if_neg hc, hsplit, prependFirst]
      have hstep : processChars (c :: cs) cur vars = processChars cs (cur ++ [c]) vars := by
        simp only [processChars, if_neg hc]
      rw [hstep, ih (cur ++ [c]) vars, hsplit]
      simp [prependFirst, List.append_assoc]

theorem specDrive_length :
    ∀ (segs : List Str) (vars : VarTable),
      (specDrive segs vars).1.length =
        (segs.filter (fun s => jsTrim s ≠ [])).length := by
  intro segs
  induction segs with
  | nil => intro vars; simp [specDrive]
  | cons s rest ih =>
    intro vars
    cases rest with
    | nil =>
      by_cases ht : jsTrim s ≠ []
      · simp [specDrive, ht, List.filter_cons]
      · simp [specDrive, ht, List.filter_cons]
    | cons s' rest' =>
      by_cases ht : jsTrim s ≠ []
      · simp [specDrive, ht, List.filter_cons, ih]
      · simp [specDrive, ht, List.filter_cons, ih]

/-! ### Statement-processor lemmas -/

theorem processStatement_assign {stmt : Str} {i : Nat} (vars : VarTable)
    (hc : startsSlashSlash (jsTrim stmt) = false) (hi : findAssignIdx stmt = some i) :
    processStatement stmt vars = processAssign stmt i vars := by
  simp [processStatement, hc, hi]

theorem processStatement_bare {stmt : Str} (vars : VarTable)
    (hc : startsSlashSlash (jsTrim stmt) = false) (hi : findAssignIdx stmt = none) :
    processStatement stmt vars = processBare stmt vars := by
  simp [processStatement, hc, hi]

theorem processAssign_eval {stmt : Str} {i : Nat} (vars : VarTable)
    (h1 : identFullOK (leftRawOf stmt i) = true)
    (h3 : (tokenizeLine (rightRawOf stmt i)).find?
        (fun t => t.type == TType.unknown || t.type == TType.comment) = none) :
    processAssign stmt i vars =
      match parseExpression (tokenizeLine (rightRawOf stmt i)) vars with
      | POut.ok v _ => (⟨true, none⟩, setVar vars (leftRawOf stmt i) v)
      | POut.err m =>
        if semanticMsg m then (⟨true, some m⟩, vars) else (⟨false, some m⟩, vars)
      | POut.fuel => (⟨false, some msgFuel⟩, vars) := by
  have h2 : startsUpper (leftRawOf stmt i) = false := identFullOK_not_upper h1
  cases hp : parseExpression (tokenizeLine (rightRawOf stmt i)) vars <;>
    simp [processAssign, h1, h2, h3, hp]

theorem processAssign_table (stmt : Str) (i : Nat) (vars : VarTable) :
    (processAssign stmt i vars).2 = vars ∨
      ∃ v, parseExpression (tokenizeLine (rightRawOf stmt i)) vars = POut.ok v [] ∧
        processAssign stmt i vars = (⟨true, none⟩, setVar vars (leftRawOf stmt i) v) := by
  by_cases h1 : identFullOK (leftRawOf stmt i) = true
  · have h2 : startsUpper (leftRawOf stmt i) = false := identFullOK_not_upper h1
    cases h3 : (tokenizeLine (rightRawOf stmt i)).find?
        (fun t => t.type == TType.unknown || t.type == TType.comment) with
    | some t =>
      left
      by_cases htu : t.type = TType.unknown
      · simp [processAssign, h1, h2, h3, htu]
      · simp [processAssign, h1, h2, h3, htu]
    | none =>
      cases hp : parseExpression (tokenizeLine (rightRawOf stmt i)) vars with
      | ok v rest =>
        obtain ⟨hrun, hrest⟩ := parseExpression_ok_inv hp
        subst hrest
        exact Or.inr ⟨v, rfl, by simp [processAssign_eval vars h1 h3, hp]⟩
      | err m =>
        left
        simp only [processAssign_eval vars h1 h3, hp]
        split <;> rfl
      | fuel =>
        left
        simp [processAssign_eval vars h1 h3, hp]
  · left
    simp [processAssign, h1]

theorem processBare_multi {stmt : Str} (vars : VarTable) {t1 t2 : Token}
    {ts : List Token} (htok : tokenizeLine stmt = t1 :: t2 :: ts)
    (hunk : (tokenizeLine stmt).find? (fun t => t.type == TType.unknown) = none) :
    processBare stmt vars =
      match parseExpression (tokenizeLine stmt) vars with
      | POut.ok _ _ => (⟨true, none⟩, vars)
      | POut.err m =>
        if semanticMsg m then (⟨true, some m⟩, vars) else (⟨false, some m⟩, vars)
      | POut.fuel => (⟨false, some msgFuel⟩, vars) := by
  rw [htok] at hunk
  cases hp : parseExpression (tokenizeLine stmt) vars <;>
    rw [htok] at hp <;>
    simp [processBare, htok, hunk, hp]

theorem semanticMsg_undef (v : Str) :
    semanticMsg (msgUndefVar v) = true := rfl

theorem semanticMsg_div : semanticMsg msgDivZero = true := by decide

theorem parseRun_mulDiv_of_factor {f : Nat} {ts : List Token} {vars : VarTable}
    {v : Int} {rest : List Token} (h : parseRun f (PCall.factor ts) vars = POut.ok v rest) :
    parseRun (f + 1) (PCall.mulDiv ts) vars = parseRun f (PCall.mulLoop v rest) vars := by
  simp only [parseRun, h]

theorem parseRun_addSub_of_mulDiv {f : Nat} {ts : List Token} {vars : VarTable}
    {v : Int} {rest : List Token} (h : parseRun f (PCall.mulDiv ts) vars = POut.ok v rest) :
    parseRun (f + 1) (PCall.addSub ts) vars = parseRun f (PCall.addLoop v rest) vars := by
  simp only [parseRun, h]

theorem parseExpression_of_addSub {ts : List Token} {vars : VarTable} {v : Int}
    (h : parseRun (parserFuel ts) (PCall.addSub ts) vars = POut.ok v []) :
    parseExpression ts vars = POut.ok v [] := by
  simp only [parseExpression, h]

/-! ### Claim theorems -/

/-- C1 counterexample: the claim says every unexpected-token evaluation
error yields status Rejected, but the bare-expression path does not
filter Comment tokens, so the statement `1 + //Division by zero` fails
with an unexpected-token error whose message embeds the phrase
`Division by zero`; the regex classification then marks it Accepted. -/
theorem c1_counterexample :
    parseExpression (tokenizeLine ("1 + //Division by zero".toList)) [] =
      POut.err (msgUnexpected ("//Division by zero".toList)) ∧
    (processStatement ("1 + //Division by zero".toList) []).1 =
      ⟨true, some (msgUnexpected ("//Division by zero".toList))⟩ ∧
    (processProgram ("1 + //Division by zero;".toList)).1 =
      [⟨"1 + //Division by zero;".toList, Status.accepted, none⟩] := by
  refine ⟨by decide, by decide, by decide⟩

/-- C1 (amended): when expression evaluation fails, the statement status
is determined by the error MESSAGE TEXT, not by an error tag: the
statement is Accepted iff the message contains "Undefined variable" or
"Division by zero" as a substring.  Genuine undefined-variable and
division-by-zero errors always contain those phrases (so they are always
Accepted); every other failure is Rejected unless its message happens to
embed one of the phrases (possible only via a Comment token's text in
the bare-expression path, which filters Unknown but not Comment tokens). -/
theorem c1_status_from_message_text (stmt : Str) (vars : VarTable) (m : Str) :
    (startsSlashSlash (jsTrim stmt) = false → findAssignIdx stmt = none →
      (tokenizeLine stmt).find? (fun t => t.type == TType.unknown) = none →
      2 ≤ (tokenizeLine stmt).length →
      parseExpression (tokenizeLine stmt) vars = POut.err m →
      processStatement stmt vars = (⟨semanticMsg m, some m⟩, vars)) ∧
    (∀ i : Nat, startsSlashSlash (jsTrim stmt) = false → findAssignIdx stmt = some i →
      identFullOK (leftRawOf stmt i) = true →
      (tokenizeLine (rightRawOf stmt i)).find?
        (fun t => t.type == TType.unknown || t.type == TType.comment) = none →
      parseExpression (tokenizeLine (rightRawOf stmt i)) vars = POut.err m →
      processStatement stmt vars = (⟨semanticMsg m, some m⟩, vars)) ∧
    (∀ v : Str, semanticMsg (msgUndefVar v) = true) ∧
    semanticMsg msgDivZero = true := by
  refine ⟨?_, ?_, semanticMsg_undef, semanticMsg_div⟩
  · intro hc hi hunk hlen hp
    rw [processStatement_bare vars hc hi]
    cases htok : tokenizeLine stmt with
    | nil => rw [htok] at hlen; simp at hlen
    | cons t1 rest1 =>
      cases rest1 with
      | nil => rw [htok] at hlen; simp at hlen
      | cons t2 ts' =>
        rw [processBare_multi vars htok hunk]
        simp only [hp]
        by_cases hs : semanticMsg m = true
        · simp [hs]
        · rw [Bool.not_eq_true] at hs
          simp [hs]
  · intro i hc hi h1 h3 hp
    rw [processStatement_assign vars hc hi, processAssign_eval vars h1 h3]
    simp only [hp]
    by_cases hs : semanticMsg m = true
    · simp [hs]
    · rw [Bool.not_eq_true] at hs
      simp [hs]

/-- C1 witness: `x := 1/0` fails with the Division by zero message and
is Accepted, carrying the message at statement level. -/
theorem c1_witness :
    processStatement ("x := 1/0".toList) [] = (⟨true, some msgDivZero⟩, []) := by
  have h := (c1_status_from_message_text ("x := 1/0".toList) [] msgDivZero).2.1 2
    (by decide) (by decide) (by decide) (by decide) (by decide)
  rw [h]
  decide

/-- C2: for an assignment statement, the variable table is updated (the
left-hand identifier bound to the computed value) exactly when the
right-hand side evaluates fully; on every parse error — syntax or
semantic — and on every pre-check failure the table is returned
unchanged, even when the statement is Accepted with a warning. -/
theorem c2_assignment_table_iff (stmt : Str) (i : Nat) (vars : VarTable)
    (hc : startsSlashSlash (jsTrim stmt) = false)
    (hi : findAssignIdx stmt = some i) :
    (∀ v : Int, identFullOK (leftRawOf stmt i) = true →
      (tokenizeLine (rightRawOf stmt i)).find?
        (fun t => t.type == TType.unknown || t.type == TType.comment) = none →
      parseExpression (tokenizeLine (rightRawOf stmt i)) vars = POut.ok v [] →
      processStatement stmt vars = (⟨true, none⟩, setVar vars (leftRawOf stmt i) v)) ∧
    (∀ m : Str, parseExpression (tokenizeLine (rightRawOf stmt i)) vars = POut.err m →
      (processStatement stmt vars).2 = vars) ∧
    ((processStatement stmt vars).2 ≠ vars →
      ∃ v, parseExpression (tokenizeLine (rightRawOf stmt i)) vars = POut.ok v [] ∧
        processStatement stmt vars = (⟨true, none⟩, setVar vars (leftRawOf stmt i) v)) := by
  rw [processStatement_assign vars hc hi]
  refine ⟨?_, ?_, ?_⟩
  · intro v h1 h3 hp
    rw [processAssign_eval vars h1 h3]
    simp [hp]
  · intro m hp
    rcases processAssign_table stmt i vars with h | ⟨v, hv, -⟩
    · exact h
    · rw [hp] at hv; cases hv
  · intro hne
    rcases processAssign_table stmt i vars with h | hgood
    · exact absurd h hne
    · exact hgood

/-- C2 witness: `a := 2` succeeds and binds `a` to 2. -/
theorem c2_witness :
    processStatement ("a := 2".toList) [] = (⟨true, none⟩, [("a".toList, 2)]) := by
  have h := (c2_assignment_table_iff ("a := 2".toList) 2 [] (by decide) (by decide)).1 2
    (by decide) (by decide) (by decide)
  rw [h]
  decide

/-- C3: the claim (with the spec) says a semantic failure produces an
Accepted outcome carrying a message naming the error, and the statement
processor indeed computes `{ ok: true, err: "Undefined variable 'x'" }`
for `_var := 0ff * (x - 1b)` — but the driver builds the outcome with
`message: res.ok ? undefined : res.err` (App.tsx lines 233, 246), so
every Accepted outcome has no message and the semantic warning is
dropped, contradicting both the claim and the processor's own intent. -/
theorem c3_semantic_message_dropped :
    (processStatement ("_var := 0ff * (x - 1b)".toList) []).1 =
      ⟨true, some (msgUndefVar ['x'])⟩ ∧
    processProgram ("_var := 0ff * (x - 1b);".toList) =
      ([⟨"_var := 0ff * (x - 1b);".toList, Status.accepted, none⟩], []) := by
  refine ⟨by decide, by decide⟩

/-- C4: `/` is integer division flooring toward negative infinity
(`Int.fdiv`, the model of `Math.floor(left / right)`), for positive and
negative dividends alike; a divisor equal to 0 raises the semantic error
"Division by zero" instead of producing a value; and the full pipeline
evaluates `d := (0 - 1) / 2;` to `d = -1` (floor, not truncation). -/
theorem c4_floor_division :
    (∀ a b : Int, b ≠ 0 →
      parseExpression
        [⟨TType.identifier, ['x'], 0⟩, ⟨TType.op, ['/'], 2⟩, ⟨TType.identifier, ['y'], 4⟩]
        [(['x'], a), (['y'], b)] = POut.ok (Int.fdiv a b) []) ∧
    (∀ a : Int,
      parseExpression
        [⟨TType.identifier, ['x'], 0⟩, ⟨TType.op, ['/'], 2⟩, ⟨TType.hex, ['0'], 4⟩]
        [(['x'], a)] = POut.err msgDivZero) ∧
    processProgram ("d := (0 - 1) / 2;".toList) =
      ([⟨"d := (0 - 1) / 2;".toList, Status.accepted, none⟩], [(['d'], -1)]) := by
  refine ⟨?_, fun a => rfl, by decide⟩
  intro a b hb
  have h1 : parseRun 10
      (PCall.mulLoop a [⟨TType.op, ['/'], 2⟩, ⟨TType.identifier, ['y'], 4⟩])
      [(['x'], a), (['y'], b)] =
      (if b = 0 then POut.err msgDivZero
       else parseRun 9 (PCall.mulLoop (Int.fdiv a b) []) [(['x'], a), (['y'], b)]) := rfl
  rw [if_neg hb] at h1
  have h2 := h1.trans rfl
  have hfac : parseRun 10
      (PCall.factor [⟨TType.identifier, ['x'], 0⟩, ⟨TType.op, ['/'], 2⟩,
        ⟨TType.identifier, ['y'], 4⟩]) [(['x'], a), (['y'], b)] =
      POut.ok a [⟨TType.op, ['/'], 2⟩, ⟨TType.identifier, ['y'], 4⟩] := rfl
  have h3 := (parseRun_mulDiv_of_factor hfac).trans h2
  have h5 := parseRun_addSub_of_mulDiv h3
  exact parseExpression_of_addSub (h5.trans rfl)

/-- C4 witness: a negative dividend floors toward negative infinity:
`-7 / 2` evaluates to `-4` (truncation toward zero would give `-3`). -/
theorem c4_witness :
    parseExpression
      [⟨TType.identifier, ['x'], 0⟩, ⟨TType.op, ['/'], 2⟩, ⟨TType.identifier, ['y'], 4⟩]
      [(['x'], -7), (['y'], 2)] = POut.ok (-4) [] := by
  have h := (c4_floor_division).1 (-7) 2 (by decide)
  rw [h]
  decide

/-- C5: `*`/`/` bind tighter than `+`/`-` (`x + y * z` evaluates to
`a + b * c`), equal-precedence operators are left-associative
(`x - y - z` gives `(a - b) - c` and `x / y / z` gives
`fdiv (fdiv a b) c`), and the pipeline computes `r := 2 + 3 * 4;` as
`2 + (3 * 4) = 14`, not `(2 + 3) * 4 = 20`. -/
theorem c5_precedence_assoc :
    (∀ a b c : Int,
      parseExpression
        [⟨TType.identifier, ['x'], 0⟩, ⟨TType.op, ['+'], 1⟩, ⟨TType.identifier, ['y'], 2⟩,
         ⟨TType.op, ['*'], 3⟩, ⟨TType.identifier, ['z'], 4⟩]
        [(['x'], a), (['y'], b), (['z'], c)] = POut.ok (a + b * c) []) ∧
    (∀ a b c : Int,
      parseExpression
        [⟨TType.identifier, ['x'], 0⟩, ⟨TType.op, ['-'], 1⟩, ⟨TType.identifier, ['y'], 2⟩,
         ⟨TType.op, ['-'], 3⟩, ⟨TType.identifier, ['z'], 4⟩]
        [(['x'], a), (['y'], b), (['z'], c)] = POut.ok (a - b - c) []) ∧
    (∀ a b c : Int, b ≠ 0 → c ≠ 0 →
      parseExpression
        [⟨TType.identifier, ['x'], 0⟩, ⟨TType.op, ['/'], 1⟩, ⟨TType.identifier, ['y'], 2⟩,
         ⟨TType.op, ['/'], 3⟩, ⟨TType.identifier, ['z'], 4⟩]
        [(['x'], a), (['y'], b), (['z'], c)] = POut.ok (Int.fdiv (Int.fdiv a b) c) []) ∧
    processProgram ("r := 2 + 3 * 4;".toList) =
      ([⟨"r := 2 + 3 * 4;".toList, Status.accepted, none⟩], [(['r'], 14)]) := by
  refine ⟨fun a b c => rfl, fun a b c => rfl, ?_, by decide⟩
  intro a b c hb hc
  have h1 : parseRun 16
      (PCall.mulLoop a [⟨TType.op, ['/'], 1⟩, ⟨TType.identifier, ['y'], 2⟩,
        ⟨TType.op, ['/'], 3⟩, ⟨TType.identifier, ['z'], 4⟩])
      [(['x'], a), (['y'], b), (['z'], c)] =
      (if b = 0 then POut.err msgDivZero
       else parseRun 15
         (PCall.mulLoop (Int.fdiv a b) [⟨TType.op, ['/'], 3⟩, ⟨TType.identifier, ['z'], 4⟩])
         [(['x'], a), (['y'], b), (['z'], c)]) := rfl
  rw [if_neg hb] at h1
  have h2 : parseRun 15
      (PCall.mulLoop (Int.fdiv a b) [⟨TType.op, ['/'], 3⟩, ⟨TType.identifier, ['z'], 4⟩])
      [(['x'], a), (['y'], b), (['z'], c)] =
      (if c = 0 then POut.err msgDivZero
       else parseRun 14 (PCall.mulLoop (Int.fdiv (Int.fdiv a b) c) [])
         [(['x'], a), (['y'], b), (['z'], c)]) := rfl
  rw [if_neg hc] at h2
  have h3 := h1.trans (h2.trans rfl)
  have hfac : parseRun 16
      (PCall.factor [⟨TType.identifier, ['x'], 0⟩, ⟨TType.op, ['/'], 1⟩,
        ⟨TType.identifier, ['y'], 2⟩, ⟨TType.op, ['/'], 3⟩, ⟨TType.identifier, ['z'], 4⟩])
      [(['x'], a), (['y'], b), (['z'], c)] =
      POut.ok a [⟨TType.op, ['/'], 1⟩, ⟨TType.identifier, ['y'], 2⟩,
        ⟨TType.op, ['/'], 3⟩, ⟨TType.identifier, ['z'], 4⟩] := rfl
  have h4 := (parseRun_mulDiv_of_factor hfac).trans h3
  have h5 := parseRun_addSub_of_mulDiv h4
  exact parseExpression_of_addSub (h5.trans rfl)

/-- C5 witness: the division chain is left-associative on concrete
values: `7 / 2 / -2` evaluates to `fdiv (fdiv 7 2) (-2) = fdiv 3 (-2) = -2`
(right association `fdiv 7 (fdiv 2 (-2))` would give `-7`). -/
theorem c5_witness :
    parseExpression
      [⟨TType.identifier, ['x'], 0⟩, ⟨TType.op, ['/'], 1⟩, ⟨TType.identifier, ['y'], 2⟩,
       ⟨TType.op, ['/'], 3⟩, ⟨TType.identifier, ['z'], 4⟩]
      [(['x'], 7), (['y'], 2), (['z'], -2)] = POut.ok (-2) [] := by
  have h := (c5_precedence_assoc).2.2.1 7 2 (-2) (by decide) (by decide)
  rw [h]
  decide

/-- C6 counterexample: the claim says tokenizing the rawText of any
Accepted non-comment outcome re-validates structurally, but the rawText
carries the restored terminator `;`, which the tokenizer emits as an
Unknown token and the structural validator rejects: already the program
`1+2;` produces an Accepted outcome whose rawText fails re-validation. -/
theorem c6_counterexample :
    (processProgram ("1+2;".toList)).1 = [⟨"1+2;".toList, Status.accepted, none⟩] ∧
    validate (tokenizeLine ("1+2;".toList)) = false := by
  refine ⟨by decide, by decide⟩

/-- C6 (amended): the round trip holds at the token-sequence level for
fully successful evaluations: whenever the expression evaluator returns
a value (consuming every token), the spec's structural Grammar Validator
accepts that token sequence.  Accepted outcomes do not in general
round-trip through their rawText, because rawText regains the terminator
(an Unknown token), assignments contain `:=`, and a semantically-failed
statement may carry arbitrary unvalidated tokens after the failure point. -/
theorem c6_success_validates (ts : List Token) (vars : VarTable) (v : Int)
    (rest : List Token) (h : parseExpression ts vars = POut.ok v rest) :
    validate ts = true :=
  validate_of_ok h

/-- C6 witness: the accepted expression `1a5 + 2f` re-validates. -/
theorem c6_witness : validate (tokenizeLine ("1a5 + 2f".toList)) = true :=
  c6_success_validates (tokenizeLine ("1a5 + 2f".toList)) [] 468 [] (by decide)

/-- C7: the driver loop of `processProgram` is the spec's split-then-
process driver: splitting the text on `;` (with the trailing segment
kept) and feeding every segment that is non-empty after trimming, in
order, through one threaded variable table, yields exactly its outcome
list; in particular the number of outcomes equals the number of
non-empty (after trim) segments, and the run as a whole always returns
an outcome list (it is never rejected wholesale). -/
theorem c7_driver_outcomes (text : Str) :
    processProgram text = specDrive (splitSemis text) [] ∧
    (processProgram text).1.length =
      ((splitSemis text).filter (fun s => jsTrim s ≠ [])).length := by
  have h1 : processProgram text = specDrive (splitSemis text) [] := by
    unfold processProgram
    rw [processChars_eq_specDrive, prependFirst_nil (splitSemis_ne_nil text)]
  refine ⟨h1, ?_⟩
  rw [h1]
  exact specDrive_length _ _

/-- C8: a bare statement tokenizing to exactly one token is handled
without the recursive parser: a lone valid identifier (lowercase or `_`
start) is Accepted with no message and without consulting the variable
table (the result holds for every table and never produces an
undefined-variable warning); a lone hex literal is Accepted iff it
matches one leading digit followed by `0-9`/`a-f`; every other lone
token is Rejected with the standalone-token error.  (A lone Comment
token cannot reach this path: it forces the statement to start with
`//`, which the comment branch accepts first — proved via
`tokenizeLine_head_comment`.) -/
theorem c8_single_token (stmt : Str) (vars : VarTable) (t : Token)
    (hc : startsSlashSlash (jsTrim stmt) = false)
    (hi : findAssignIdx stmt = none)
    (htok : tokenizeLine stmt = [t]) :
    (t.type = TType.identifier → startsUpper t.value = false →
      processStatement stmt vars = (⟨true, none⟩, vars)) ∧
    (t.type = TType.hex →
      processStatement stmt vars =
        (if hexLitOK t.value then (⟨true, none⟩, vars)
         else (⟨false, some (msgInvalidHex t.value)⟩, vars))) ∧
    (t.type ≠ TType.identifier → t.type ≠ TType.hex →
      processStatement stmt vars =
        (⟨false, some (msgInvalidStandalone t.value)⟩, vars)) := by
  rw [processStatement_bare vars hc hi]
  refine ⟨?_, ?_, ?_⟩
  · intro hid hup
    simp [processBare, htok, hid, hup]
  · intro hhex
    by_cases hlit : hexLitOK t.value = true
    · simp [processBare, htok, hhex, hlit]
    · rw [Bool.not_eq_true] at hlit
      simp [processBare, htok, hhex, hlit]
  · intro hnid hnhex
    by_cases hcm : t.type = TType.comment
    · exfalso
      obtain ⟨ty, tv, tp⟩ := t
      simp only at hcm
      subst hcm
      have hcomm := tokenizeLine_head_comment htok
      rw [hc] at hcomm
      cases hcomm
    · simp [processBare, htok, hnid, hnhex, hcm]

/-- C8 witness: the lone unbound identifier `qq` is Accepted against the
empty table with no message and no table change. -/
theorem c8_witness : processStatement ("qq".toList) [] = (⟨true, none⟩, []) :=
  (c8_single_token ("qq".toList) [] ⟨TType.identifier, "qq".toList, 0⟩
    (by decide) (by decide) (by decide)).1 rfl (by decide)

/-- C9: the tokenizer is total — the fuel-indexed scanner succeeds
whenever the fuel exceeds the input length, because every scanning step
consumes at least one character; in particular `tokenizeLine`'s canonical
fuel always suffices, and the scanner never signals failure.  The final
conjunct is the fallback rule: a character matching no recognized token
family is emitted as an Unknown token of exactly one character and the
scan continues right after it. -/
theorem c9_tokenizer_total :
    (∀ (l : Str) (p f : Nat), l.length < f → ∃ ts, tokenizeAuxF f l p = some ts) ∧
    (∀ l : Str, ∃ ts, tokenizeAuxF (l.length + 1) l 0 = some ts ∧ tokenizeLine l = ts) ∧
    (∀ (c : Char) (cs : Str) (p f : Nat),
      tokWS c = false → (c = '/' && (cs.head? = some '/')) = false → c ≠ ':' →
      c ≠ '(' → c ≠ ')' → (c = '+' || c = '-' || c = '*' || c = '/') = false →
      isIdentifierStart c = false → isDigit c = false →
      tokenizeAuxF (f + 1) (c :: cs) p =
        (tokenizeAuxF f cs (p + 1)).map (⟨TType.unknown, [c], p⟩ :: ·)) := by
  refine ⟨fun l p f h => tokenizeAuxF_total f l p h, tokenizeLine_some, ?_⟩
  intro c cs p f h1 h2 h3 h5 h6 h7 h8 h9
  simp only [tokenizeAuxF]
  rw [if_neg (by simp [h1]), if_neg (by simp [h2]), if_neg h3, if_neg h5, if_neg h6,
    if_neg (by simp [h7]), if_neg (by simp [h8]), if_neg (by simp [h9])]

/-- C9 witness: totality on a concrete input, and the `@` character (no
token family) becomes a one-character Unknown token. -/
theorem c9_witness :
    (∃ ts, tokenizeAuxF 3 ("@a".toList) 0 = some ts) ∧
    tokenizeAuxF 2 (['@'] : Str) 5 =
      (tokenizeAuxF 1 ([] : Str) 6).map (⟨TType.unknown, ['@'], 5⟩ :: ·) := by
  refine ⟨(c9_tokenizer_total).1 ("@a".toList) 0 3 (by decide), ?_⟩
  exact (c9_tokenizer_total).2.2 '@' [] 5 1 (by decide) (by decide) (by decide)
    (by decide) (by decide) (by decide) (by decide) (by decide)

/-- C10 counterexample: the claim asserts every `;` in the tokenizer's
input is emitted as a one-character Unknown token, but a `;` inside a
line comment is absorbed into the Comment token: `//;` tokenizes to a
single Comment token and no Unknown token at all. -/
theorem c10_counterexample :
    (';' ∈ "//;".toList) ∧
    tokenizeLine ("//;".toList) = [⟨TType.comment, "//;".toList, 0⟩] ∧
    (∀ t ∈ tokenizeLine ("//;".toList), t.type ≠ TType.unknown) := by
  refine ⟨by decide, by decide, by decide⟩

/-- C10 (amended): the tokenizer never emits a token of the declared
kind `semicolon` — that constructor is uninhabited in tokenizer output —
and a `;` reached by the scanner (i.e. not swallowed by a preceding `//`
comment) is emitted as an Unknown token of exactly one character. -/
theorem c10_no_semicolon_kind :
    (∀ (f : Nat) (l : Str) (p : Nat) (ts : List Token), tokenizeAuxF f l p = some ts →
      ∀ t ∈ ts, t.type ≠ TType.semicolon) ∧
    (∀ l : Str, ∀ t ∈ tokenizeLine l, t.type ≠ TType.semicolon) ∧
    (∀ (cs : Str) (p f : Nat),
      tokenizeAuxF (f + 1) (';' :: cs) p =
        (tokenizeAuxF f cs (p + 1)).map (⟨TType.unknown, [';'], p⟩ :: ·)) :=
  ⟨tokenizeAuxF_no_semicolon, tokenizeLine_no_semicolon, tokenizeAuxF_semi_step⟩

/-- C10 witness: on the concrete input `;` the only token is the
one-character Unknown, and the no-semicolon-kind invariant applies to it. -/
theorem c10_witness :
    (⟨TType.unknown, [';'], 0⟩ : Token).type ≠ TType.semicolon ∧
    tokenizeLine ([';'] : Str) = [⟨TType.unknown, [';'], 0⟩] := by
  refine ⟨(c10_no_semicolon_kind).2.1 [';'] ⟨TType.unknown, [';'], 0⟩ (by decide), by decide⟩

